import Mathlib

/-!
Formal model of the trade-execution and risk core of `llm-trader-python`.

The Python modules `src/llm_trader/backtest/models.py`,
`src/llm_trader/backtest/execution.py`, `src/llm_trader/backtest/metrics.py`,
`src/llm_trader/trading/policy.py` and `src/llm_trader/trading/session.py`
are embedded shallowly:

* Python `float` money amounts and prices are modelled as exact rationals (`ℚ`);
* Python `datetime` values are modelled as integers (`ℤ`, e.g. epoch seconds),
  so `timedelta(days = d)` corresponds to `d * 86400`;
* share volumes are natural numbers (`ℕ`), matching `int` volumes that the
  engine only ever creates non-negative;
* in-place mutation of `Account` / `Order` / `Position` objects becomes
  explicit state passing, and a Python `raise` becomes an `Option`/`none`
  result that the callers propagate.
-/

namespace LLMTrader

/-- Order side (`OrderSide` in `backtest/models.py`). -/
inductive OrderSide where
  | buy
  | sell
  deriving DecidableEq, Repr

/-- An order (`Order` dataclass in `backtest/models.py`).  `status` is one of
the strings "created", "filled", "rejected", exactly as in the source. -/
structure Order where
  order_id : String
  symbol : String
  side : OrderSide
  volume : ℕ
  price : ℚ
  created_at : ℤ
  status : String
  filled_volume : ℕ
  filled_amount : ℚ
  deriving DecidableEq, Repr

/-- A trade record (`Trade` dataclass in `backtest/models.py`). -/
structure Trade where
  trade_id : String
  order_id : String
  symbol : String
  side : OrderSide
  volume : ℕ
  price : ℚ
  fee : ℚ
  tax : ℚ
  timestamp : ℤ
  deriving DecidableEq, Repr

/-- One acquisition record (`Lot` dataclass in `backtest/models.py`). -/
structure Lot where
  volume : ℕ
  cost_price : ℚ
  acquired_at : ℤ
  deriving DecidableEq, Repr

/-- A position: a symbol together with its lots (`Position` dataclass in
`backtest/models.py`).  The unused `frozen` flag is kept for fidelity. -/
structure Position where
  symbol : String
  lots : List Lot
  frozen : Bool
  deriving DecidableEq, Repr

/-- Total volume of a position (`Position.volume`): sum of the lot volumes. -/
def Position.volume (p : Position) : ℕ :=
  (p.lots.map Lot.volume).sum

/-- Volume-weighted average cost price (`Position.cost_price`). -/
def Position.cost_price (p : Position) : ℚ :=
  if p.volume = 0 then 0
  else (p.lots.map (fun lot => lot.cost_price * (lot.volume : ℚ))).sum / p.volume

/-- Append a new lot (`Position.add_lot`). -/
def Position.add_lot (p : Position) (volume : ℕ) (price : ℚ) (acquired_at : ℤ) : Position :=
  { p with lots := p.lots ++ [{ volume := volume, cost_price := price, acquired_at := acquired_at }] }

/-- Whether a lot may be consumed by `remove_volume` given the `before` cutoff.
In the source the loop skips a lot when `before and lot.acquired_at >= before`
(a `datetime` is always truthy, so this is a `None` test). -/
def lotEligible (before : Option ℤ) (lot : Lot) : Bool :=
  match before with
  | none => true
  | some b => decide (lot.acquired_at < b)

/-- Sort lots ascending by acquisition time, as
`sorted(self.lots, key=lambda l: l.acquired_at)` does.  Python's sort is
stable, and so is insertion sort with a non-strict comparison, so the two
agree on every input. -/
def sortLots (lots : List Lot) : List Lot :=
  lots.insertionSort (fun a b => a.acquired_at ≤ b.acquired_at)

/-- The loop body of `Position.remove_volume`, as a recursion over the sorted
lot list.  Returns the final `remaining`, the accumulated `cost`, and the
rebuilt `new_lots` list (a fully consumed lot is dropped, a partially consumed
one is replaced by its residual at the same cost price and acquisition time,
skipped lots are kept verbatim). -/
def removeLoop (before : Option ℤ) : ℕ → List Lot → ℕ × ℚ × List Lot
  | remaining, [] => (remaining, 0, [])
  | remaining, lot :: rest =>
    if lotEligible before lot = false then
      let r := removeLoop before remaining rest
      (r.1, r.2.1, lot :: r.2.2)
    else if remaining = 0 then
      let r := removeLoop before remaining rest
      (r.1, r.2.1, lot :: r.2.2)
    else
      let sellVol := min lot.volume remaining
      let residual := lot.volume - sellVol
      let r := removeLoop before (remaining - sellVol) rest
      (r.1, lot.cost_price * (sellVol : ℚ) + r.2.1,
        (if 0 < residual then [Lot.mk residual lot.cost_price lot.acquired_at] else []) ++ r.2.2)

/-- Remove `volume` shares respecting the T+1 cutoff (`Position.remove_volume`).
`none` models the `ValueError("可出售的持仓数量不足")` raised when the eligible
lots cannot cover the requested volume; otherwise the updated position and the
removed cost amount are returned. -/
def Position.remove_volume (p : Position) (volume : ℕ) (before : Option ℤ) :
    Option (Position × ℚ) :=
  let r := removeLoop before volume (sortLots p.lots)
  if 0 < r.1 then none
  else some ({ p with lots := r.2.2 }, r.2.1)

/-- Volume currently sellable against a cutoff (`Position.available_volume`). -/
def Position.available_volume (p : Position) (before : Option ℤ) : ℕ :=
  match before with
  | none => p.volume
  | some b => ((p.lots.filter (fun lot => decide (lot.acquired_at < b))).map Lot.volume).sum

/-- Whether the position holds no lots (`Position.is_empty`). -/
def Position.is_empty (p : Position) : Bool :=
  p.lots.isEmpty

/-- The account ledger (`Account` dataclass in `backtest/models.py`).
`positions` is the insertion-ordered symbol → position dictionary, modelled as
an association list with unique keys. -/
structure Account where
  cash : ℚ
  positions : List (String × Position)
  trades : List Trade
  equity_curve : List (ℤ × ℚ)
  deriving DecidableEq, Repr

/-- Dictionary read `account.positions.get(symbol)`. -/
def posLookup (ps : List (String × Position)) (symbol : String) : Option Position :=
  match ps with
  | [] => none
  | kv :: rest => if kv.1 = symbol then some kv.2 else posLookup rest symbol

/-- Dictionary write `account.positions[symbol] = p`: replace in place when the
key exists, append at the end otherwise (Python dicts keep insertion order). -/
def posUpdate (ps : List (String × Position)) (symbol : String) (p : Position) :
    List (String × Position) :=
  match ps with
  | [] => [(symbol, p)]
  | kv :: rest => if kv.1 = symbol then (symbol, p) :: rest else kv :: posUpdate rest symbol p

/-- Dictionary delete `del account.positions[symbol]` (keys are unique, so
removing the first occurrence is exact). -/
def posErase (ps : List (String × Position)) (symbol : String) : List (String × Position) :=
  match ps with
  | [] => []
  | kv :: rest => if kv.1 = symbol then rest else kv :: posErase rest symbol

/-- The position returned by `Account.get_position`: the existing one, or a
fresh empty position for the symbol. -/
def Account.get_position (account : Account) (symbol : String) : Position :=
  match posLookup account.positions symbol with
  | some pos => pos
  | none => { symbol := symbol, lots := [], frozen := false }

/-- Engine configuration (`ExecutionConfig` in `backtest/execution.py`). -/
structure ExecutionConfig where
  commission_rate : ℚ
  min_commission : ℚ
  stamp_duty_rate : ℚ
  transfer_fee_rate : ℚ
  allow_same_day_sell : Bool
  deriving DecidableEq, Repr

/-- The dataclass defaults of `ExecutionConfig`
(0.0003, 5.0, 0.001, 0.00002, False). -/
def defaultConfig : ExecutionConfig :=
  { commission_rate := 3/10000
    min_commission := 5
    stamp_duty_rate := 1/1000
    transfer_fee_rate := 2/100000
    allow_same_day_sell := false }

/-- Commission of a fill: `max(price * volume * commission_rate, min_commission)`. -/
def commissionFee (cfg : ExecutionConfig) (price : ℚ) (volume : ℕ) : ℚ :=
  max ((price * volume * cfg.commission_rate : ℚ)) cfg.min_commission

/-- Transfer fee of a fill: `price * volume * transfer_fee_rate`. -/
def transferFee (cfg : ExecutionConfig) (price : ℚ) (volume : ℕ) : ℚ :=
  price * (volume : ℚ) * cfg.transfer_fee_rate

/-- Stamp duty of a sell fill: `price * volume * stamp_duty_rate`. -/
def stampDuty (cfg : ExecutionConfig) (price : ℚ) (volume : ℕ) : ℚ :=
  price * (volume : ℚ) * cfg.stamp_duty_rate

/-- Total cash debit of a buy fill: `price * volume + commission + transfer_fee`. -/
def buyTotalCost (cfg : ExecutionConfig) (price : ℚ) (volume : ℕ) : ℚ :=
  price * (volume : ℚ) + commissionFee cfg price volume + transferFee cfg price volume

/-- The `Trade` record constructed by the engine for a fill. -/
def mkTrade (order : Order) (price fee tax : ℚ) (dt : ℤ) : Trade :=
  { trade_id := "trade-" ++ order.order_id
    order_id := order.order_id
    symbol := order.symbol
    side := order.side
    volume := order.volume
    price := price
    fee := fee
    tax := tax
    timestamp := dt }

/-- Buy path `ExecutionEngine._execute_buy`: reject when
`account.cash < total_cost`, otherwise debit cash, add a lot, append a trade,
and mark the order filled.  Returns the updated account, the updated order and
the produced trade (if any). -/
def execBuy (cfg : ExecutionConfig) (account : Account) (order : Order) (price : ℚ) (dt : ℤ) :
    Account × Order × Option Trade :=
  let commission := commissionFee cfg price order.volume
  let transfer := transferFee cfg price order.volume
  let total_cost := price * (order.volume : ℚ) + commission + transfer
  if account.cash < total_cost then
    (account, { order with status := "rejected" }, none)
  else
    let trade := mkTrade order price (commission + transfer) 0 dt
    let account1 : Account :=
      { account with
        cash := account.cash - total_cost
        positions := posUpdate account.positions order.symbol
          ((account.get_position order.symbol).add_lot order.volume price dt)
        trades := account.trades ++ [trade] }
    (account1,
      { order with status := "filled", filled_volume := order.volume,
                   filled_amount := price * (order.volume : ℚ) },
      some trade)

/-- Sell path `ExecutionEngine._execute_sell`: reject when the symbol has no
position or the T+1-eligible volume is insufficient; otherwise drain lots,
credit the net proceeds, drop the position if it became empty, append a trade
and mark the order filled.  The outer `none` models the `ValueError` that
`remove_volume` can raise (it propagates out of the engine). -/
def execSell (cfg : ExecutionConfig) (account : Account) (order : Order) (price : ℚ) (dt : ℤ) :
    Option (Account × Order × Option Trade) :=
  match posLookup account.positions order.symbol with
  | none => some (account, { order with status := "rejected" }, none)
  | some position =>
    let allowed_before : Option ℤ := if cfg.allow_same_day_sell then none else some dt
    if position.available_volume allowed_before < order.volume then
      some (account, { order with status := "rejected" }, none)
    else
      match position.remove_volume order.volume allowed_before with
      | none => none
      | some r =>
        let commission := commissionFee cfg price order.volume
        let transfer := transferFee cfg price order.volume
        let duty := stampDuty cfg price order.volume
        let proceeds := price * (order.volume : ℚ)
        let positions1 := posUpdate account.positions order.symbol r.1
        let positions2 := if r.1.is_empty then posErase positions1 order.symbol else positions1
        let trade := mkTrade order price (commission + transfer) duty dt
        let account1 : Account :=
          { account with
            cash := account.cash + (proceeds - commission - transfer - duty)
            positions := positions2
            trades := account.trades ++ [trade] }
        some (account1,
          { order with status := "filled", filled_volume := order.volume,
                       filled_amount := proceeds },
          some trade)

/-- Batch matching `ExecutionEngine.execute`: orders are processed in the given
sequence; a non-positive looked-up price skips the order silently; buys and
sells are dispatched to the paths above; trades accumulate in order.  `none`
models the propagated `ValueError` of an invariant violation inside a sell. -/
def ExecutionEngine.execute (cfg : ExecutionConfig) (account : Account) (orders : List Order)
    (priceLookup : String → OrderSide → ℚ) (dt : ℤ) :
    Option (Account × List Order × List Trade) :=
  match orders with
  | [] => some (account, [], [])
  | o :: rest =>
    let price := priceLookup o.symbol o.side
    if price ≤ 0 then
      (ExecutionEngine.execute cfg account rest priceLookup dt).map
        (fun r => (r.1, o :: r.2.1, r.2.2))
    else
      match o.side with
      | OrderSide.buy =>
        let s := execBuy cfg account o price dt
        (ExecutionEngine.execute cfg s.1 rest priceLookup dt).map
          (fun r => (r.1, s.2.1 :: r.2.1, s.2.2.toList ++ r.2.2))
      | OrderSide.sell =>
        match execSell cfg account o price dt with
        | none => none
        | some s =>
          (ExecutionEngine.execute cfg s.1 rest priceLookup dt).map
            (fun r => (r.1, s.2.1 :: r.2.1, s.2.2.toList ++ r.2.2))

/-!
Live settlement path, from `TradingSession._settle_trades` in
`trading/session.py`: broker-returned trades are booked into the same
`Account` ledger.  The source keys a dict `order_map` by `order_id` (with
distinct ids this is the per-id lookup modelled here) and mutates the matching
order in place.
-/

/-- Per-trade order bookkeeping of `_settle_trades`: the order whose id
matches the trade is marked filled with the trade's volume and amount. -/
def updateOrderForTrade (t : Trade) (o : Order) : Order :=
  if o.order_id = t.order_id then
    { o with status := "filled", filled_volume := t.volume,
             filled_amount := t.price * (t.volume : ℚ) }
  else o

/-- Per-trade ledger bookkeeping of `_settle_trades`: a buy debits
`price*volume + fee + tax` and adds a lot; a sell with an existing position
removes the volume with cutoff `trading_dt` (the `ValueError` that
`remove_volume` may raise is the `none` case) and credits
`price*volume - fee - tax`; a sell without a position only credits cash.
The trade is appended to the account history in every non-error case. -/
def settleLedger (account : Account) (t : Trade) (trading_dt : ℤ) : Option Account :=
  match t.side with
  | OrderSide.buy =>
    let total_cost := t.price * (t.volume : ℚ) + t.fee + t.tax
    some { account with
      cash := account.cash - total_cost
      positions := posUpdate account.positions t.symbol
        ((account.get_position t.symbol).add_lot t.volume t.price trading_dt)
      trades := account.trades ++ [t] }
  | OrderSide.sell =>
    match posLookup account.positions t.symbol with
    | some position =>
      let proceeds := t.price * (t.volume : ℚ) - t.fee - t.tax
      match position.remove_volume t.volume (some trading_dt) with
      | none => none
      | some r =>
        let positions1 := posUpdate account.positions t.symbol r.1
        some { account with
          cash := account.cash + proceeds
          positions := if r.1.is_empty then posErase positions1 t.symbol else positions1
          trades := account.trades ++ [t] }
    | none =>
      some { account with
        cash := account.cash + (t.price * (t.volume : ℚ) - t.fee - t.tax)
        trades := account.trades ++ [t] }

/-- The loop of `_settle_trades` over the broker-returned trades: for each
trade, update the matching order, then book the ledger effect.  Returns the
updated account and orders, or `none` when a `remove_volume` call raised. -/
def settleTrades (account : Account) (orders : List Order) (trades : List Trade) (dt : ℤ) :
    Option (Account × List Order) :=
  match trades with
  | [] => some (account, orders)
  | t :: ts =>
    let orders1 := orders.map (updateOrderForTrade t)
    match settleLedger account t dt with
    | none => none
    | some account1 => settleTrades account1 orders1 ts dt

/-- The account state after the engine processes one order (used to phrase
step-wise admissibility of a batch): the buy path always returns an account;
a sell that raised leaves the account unchanged here (that case is excluded
by admissibility). -/
def engineStepAccount (cfg : ExecutionConfig) (account : Account) (o : Order) (price : ℚ)
    (dt : ℤ) : Account :=
  match o.side with
  | OrderSide.buy => (execBuy cfg account o price dt).1
  | OrderSide.sell =>
    match execSell cfg account o price dt with
    | some s => s.1
    | none => account

/-- A batch of orders is admissible for the engine when, processed in
sequence, every order has a positive looked-up price and would be accepted:
a buy finds sufficient cash, a sell finds a position with sufficient
T+1-eligible volume. -/
def Admissible (cfg : ExecutionConfig) (pl : String → OrderSide → ℚ) (dt : ℤ) :
    Account → List Order → Bool
  | _, [] => true
  | account, o :: rest =>
    let price := pl o.symbol o.side
    (decide (0 < price) &&
      (match o.side with
       | OrderSide.buy => decide (buyTotalCost cfg price o.volume ≤ account.cash)
       | OrderSide.sell =>
         match posLookup account.positions o.symbol with
         | none => false
         | some pos => decide (o.volume ≤ pos.available_volume (some dt)))) &&
    Admissible cfg pl dt (engineStepAccount cfg account o price dt) rest

/-!
Risk policy, from `trading/policy.py`.  The equity curve entries are Python
dicts; an entry is modelled by the fields the policy reads: the values under
"timestamp" and "date", and the value under "equity".  A timestamp value is
either a datetime, a string (carrying the result `datetime.fromisoformat`
would produce on it, since ISO-8601 parsing itself is not re-implemented
here), or some other Python value such as an int.  An equity (or volume /
cost price) value either coerces under `float()` or does not.  Alert strings
are modelled as structured alerts carrying the numbers that the source
interpolates into the message (for the volatility message the sample variance,
i.e. the square of the interpolated standard deviation, is carried so the
policy stays within exact rational arithmetic).  The alert callback is pure
side-effect logging and never influences the decision, so it is not modelled.
`datetime.utcnow()` is modelled by the explicit parameter `now`.
-/

/-- A Python value appearing in a "timestamp"/"date"/"acquired_at" slot. -/
inductive TimeVal where
  | dt (t : ℤ)
  | str (s : String) (parsed : Option ℤ)
  | pyInt (n : ℤ)
  deriving DecidableEq, Repr

/-- Python truthiness of a timestamp value: datetimes are always truthy,
a string is truthy iff nonempty, an int is truthy iff nonzero. -/
def TimeVal.truthy : TimeVal → Bool
  | TimeVal.dt _ => true
  | TimeVal.str s _ => decide (s ≠ "")
  | TimeVal.pyInt n => decide (n ≠ 0)

/-- The static `_parse_datetime` on a non-None value: a datetime parses to
itself, a string parses as ISO-8601 (outcome carried in the model), anything
else gives `None`. -/
def parseDatetimeVal : TimeVal → Option ℤ
  | TimeVal.dt t => some t
  | TimeVal.str _ p => p
  | TimeVal.pyInt _ => none

/-- The static `_parse_datetime`, including a `None` argument. -/
def parseDatetime : Option TimeVal → Option ℤ
  | none => none
  | some tv => parseDatetimeVal tv

/-- A Python value that `float()` either coerces to a number or rejects. -/
inductive PyVal where
  | num (q : ℚ)
  | nonnum
  deriving DecidableEq, Repr

/-- One equity-curve entry as read by `_normalize_equity`: the values of
`item.get("timestamp")`, `item.get("date")` and `item.get("equity")`. -/
structure EquityEntry where
  timestamp : Option TimeVal
  date : Option TimeVal
  equity : Option PyVal
  deriving DecidableEq, Repr

/-- The expression `item.get("timestamp") or item.get("date")`: the
"timestamp" value when present and truthy, otherwise the "date" value. -/
def EquityEntry.effectiveTimestamp (e : EquityEntry) : Option TimeVal :=
  match e.timestamp with
  | some tv => if tv.truthy then some tv else e.date
  | none => e.date

/-- The loop of `_normalize_equity`; `n` is `len(series)` so far, inserted as
the positional timestamp when the entry has none. -/
def normalizeGo (n : ℕ) : List EquityEntry → List (TimeVal × ℚ)
  | [] => []
  | e :: rest =>
    match e.equity with
    | none => normalizeGo n rest
    | some PyVal.nonnum => normalizeGo n rest
    | some (PyVal.num q) =>
      let ts := match e.effectiveTimestamp with
        | some tv => tv
        | none => TimeVal.pyInt (n : ℤ)
      (ts, q) :: normalizeGo (n + 1) rest

/-- `_normalize_equity`: keep the entries whose equity coerces to a float,
pairing each with its timestamp (or its position when absent). -/
def normalizeEquity (equity_curve : List EquityEntry) : List (TimeVal × ℚ) :=
  normalizeGo 0 equity_curve

/-- Threshold configuration (`RiskThresholds` dataclass). -/
structure RiskThresholds where
  max_equity_drawdown : ℚ
  max_position_ratio : ℚ
  max_equity_volatility : ℚ
  max_sector_exposure : ℚ
  max_holding_days : ℤ
  deriving DecidableEq, Repr

/-- The dataclass defaults of `RiskThresholds` (0.1, 0.3, 0.0, 0.0, 0). -/
def defaultThresholds : RiskThresholds :=
  { max_equity_drawdown := 1/10
    max_position_ratio := 3/10
    max_equity_volatility := 0
    max_sector_exposure := 0
    max_holding_days := 0 }

/-- A structured rendering of the alert message each check formats.  The
drawdown and position alerts carry the percentage (value × 100) that the
message interpolates; the volatility alert carries the sample variance (the
message interpolates its square root); sector alerts carry the raw ratio. -/
inductive RiskAlert where
  | drawdown (percentage limit : ℚ)
  | volatility (sampleVariance threshold : ℚ)
  | positionExposure (symbol : String) (percentage limit : ℚ)
  | sectorExposure (sector : String) (ratio threshold : ℚ)
  | holdingPeriod (symbol : String) (days maxDays : ℤ)
  deriving DecidableEq, Repr

/-- The outcome of `RiskPolicy.evaluate` (`RiskDecision` dataclass). -/
structure RiskDecision where
  proceed : Bool
  alerts : List RiskAlert
  deriving DecidableEq, Repr

/-- `_check_drawdown`: disabled for a non-positive threshold; otherwise
compares `(max(equity) - latest)/max(equity)` against the threshold.  The
`none` on an empty series stands for the `ValueError` Python's `max()` would
raise; `evaluate` only calls this on a nonempty series. -/
def checkDrawdown (th : RiskThresholds) (series : List (TimeVal × ℚ)) : Option RiskAlert :=
  if th.max_equity_drawdown ≤ 0 then none
  else
    match (series.map Prod.snd).max? with
    | none => none
    | some maxEquity =>
      let latest := match series.getLast? with
        | some p => p.2
        | none => 0
      if maxEquity ≤ 0 then none
      else
        let drawdown := (maxEquity - latest) / maxEquity
        if th.max_equity_drawdown ≤ drawdown then
          some (RiskAlert.drawdown (drawdown * 100) (th.max_equity_drawdown * 100))
        else none

/-- The return-building loop of `_check_volatility`: period-over-period
returns, skipping a step whose previous value is zero. -/
def pctReturnsGo (previous : ℚ) : List ℚ → List ℚ
  | [] => []
  | v :: rest =>
    if previous = 0 then pctReturnsGo v rest
    else (v - previous) / previous :: pctReturnsGo v rest

/-- `_check_volatility`: disabled for a non-positive threshold or fewer than
3 points / 2 returns; otherwise compares `statistics.stdev(returns)` against
the threshold.  `statistics.stdev` is the square root of the sample variance
`Σ(r - mean)²/(n-1)`; with the positive-threshold guard already taken,
`stdev ≥ threshold` holds iff `sample variance ≥ threshold²`, which keeps the
check in exact rational arithmetic. -/
def checkVolatility (th : RiskThresholds) (series : List (TimeVal × ℚ)) : Option RiskAlert :=
  if th.max_equity_volatility ≤ 0 ∨ series.length < 3 then none
  else
    let returns := match series.map Prod.snd with
      | [] => []
      | p :: rest => pctReturnsGo p rest
    if returns.length < 2 then none
    else
      let mean := returns.sum / (returns.length : ℚ)
      let sampleVariance := (returns.map (fun r => (r - mean) ^ 2)).sum / ((returns.length : ℚ) - 1)
      if th.max_equity_volatility ^ 2 ≤ sampleVariance then
        some (RiskAlert.volatility sampleVariance th.max_equity_volatility)
      else none

/-- `_resolve_latest_equity`: scanning from the end, the first value that
coerces under `float()`; the series values are already floats, so this is the
last value, and 0.0 for an empty series. -/
def resolveLatestEquity (series : List (TimeVal × ℚ)) : ℚ :=
  match series.getLast? with
  | some p => p.2
  | none => 0

/-- `_resolve_evaluation_time`: the last parseable timestamp of the series,
falling back to `datetime.utcnow()`, which is modelled by `now`. -/
def resolveEvaluationTime (series : List (TimeVal × ℚ)) (now : ℤ) : ℤ :=
  match series.reverse.findSome? (fun p => parseDatetimeVal p.1) with
  | some t => t
  | none => now

/-- One lot inside a position snapshot, as read by `_check_holding_period`
(`lot.get("acquired_at")`). -/
structure SnapshotLot where
  volume : Option PyVal
  cost_price : Option PyVal
  acquired_at : Option TimeVal
  deriving DecidableEq, Repr

/-- One position snapshot dict, as read by the exposure / sector / holding
checks (`position.get("symbol"/"volume"/"cost_price"/"lots")`). -/
structure PositionSnapshot where
  symbol : Option String
  volume : Option PyVal
  cost_price : Option PyVal
  lots : Option (List SnapshotLot)
  deriving DecidableEq, Repr

/-- `_check_position_exposure`: for each position whose volume and cost price
coerce, alert when `volume*cost_price/latest_equity` reaches the threshold. -/
def checkPositionExposure (th : RiskThresholds) (series : List (TimeVal × ℚ))
    (positions : List PositionSnapshot) : List RiskAlert :=
  if positions.isEmpty ∨ series.isEmpty ∨ th.max_position_ratio ≤ 0 then []
  else
    let latest := resolveLatestEquity series
    if latest ≤ 0 then []
    else
      positions.filterMap (fun position =>
        match position.volume, position.cost_price with
        | some (PyVal.num v), some (PyVal.num c) =>
          let ratio := v * c / latest
          if th.max_position_ratio ≤ ratio then
            some (RiskAlert.positionExposure (position.symbol.getD "UNKNOWN")
              (ratio * 100) (th.max_position_ratio * 100))
          else none
        | _, _ => none)

/-- The expression `self._sector_lookup(str(symbol)) or "UNKNOWN"`: a missing
or falsy (empty-string) sector becomes "UNKNOWN". -/
def sectorOf (sector_lookup : String → Option String) (symbol : String) : String :=
  match sector_lookup symbol with
  | some s => if s = "" then "UNKNOWN" else s
  | none => "UNKNOWN"

/-- Accumulation into the `defaultdict(float)` of `_check_sector_concentration`
(insertion-ordered, like a Python dict). -/
def exposureAdd (m : List (String × ℚ)) (sector : String) (notion : ℚ) : List (String × ℚ) :=
  match m with
  | [] => [(sector, notion)]
  | kv :: rest =>
    if kv.1 = sector then (kv.1, kv.2 + notion) :: rest
    else kv :: exposureAdd rest sector notion

/-- The exposure-aggregation loop of `_check_sector_concentration`. -/
def sectorExposures (sector_lookup : String → Option String)
    (positions : List PositionSnapshot) : List (String × ℚ) :=
  positions.foldl (fun m position =>
    match position.symbol, position.volume, position.cost_price with
    | some sym, some (PyVal.num v), some (PyVal.num c) =>
      exposureAdd m (sectorOf sector_lookup sym) (v * c)
    | _, _, _ => m) []

/-- `_check_sector_concentration`: aggregate notional per sector and alert on
each sector whose `notional/latest_equity` reaches the threshold. -/
def checkSectorConcentration (th : RiskThresholds) (sector_lookup : String → Option String)
    (series : List (TimeVal × ℚ)) (positions : List PositionSnapshot) : List RiskAlert :=
  if th.max_sector_exposure ≤ 0 ∨ positions.isEmpty ∨ series.isEmpty then []
  else
    let latest := resolveLatestEquity series
    if latest ≤ 0 then []
    else
      (sectorExposures sector_lookup positions).filterMap (fun kv =>
        let ratio := kv.2 / latest
        if th.max_sector_exposure ≤ ratio then
          some (RiskAlert.sectorExposure kv.1 ratio th.max_sector_exposure)
        else none)

/-- `_check_holding_period`: per position, the first lot whose parseable
acquisition time is more than `max_holding_days` days (86400·d time units)
before the reference time yields one alert; the reported day count is the
floor of the difference in days, like `timedelta.days`. -/
def checkHoldingPeriod (th : RiskThresholds) (now : ℤ) (series : List (TimeVal × ℚ))
    (positions : List PositionSnapshot) : List RiskAlert :=
  if th.max_holding_days ≤ 0 ∨ positions.isEmpty then []
  else
    let ref := resolveEvaluationTime series now
    positions.filterMap (fun position =>
      let lots := match position.lots with
        | some ls => ls
        | none => []
      lots.findSome? (fun lot =>
        match parseDatetime lot.acquired_at with
        | none => none
        | some acq =>
          if th.max_holding_days * 86400 < ref - acq then
            some (RiskAlert.holdingPeriod (position.symbol.getD "UNKNOWN")
              ((ref - acq).fdiv 86400) th.max_holding_days)
          else none))

/-- `RiskPolicy.evaluate`: normalize the curve, run the drawdown and
volatility checks when the series is nonempty, always run the exposure,
sector and holding checks, concatenate all triggered alerts, and proceed
exactly when no alert fired.  The alert callback only logs and is omitted. -/
def RiskPolicy.evaluate (th : RiskThresholds) (sector_lookup : String → Option String)
    (now : ℤ) (equity_curve : List EquityEntry) (positions : List PositionSnapshot) :
    RiskDecision :=
  let series := normalizeEquity equity_curve
  let alerts :=
    (if series.isEmpty then []
     else (checkDrawdown th series).toList ++ (checkVolatility th series).toList)
    ++ checkPositionExposure th series positions
    ++ checkSectorConcentration th sector_lookup series positions
    ++ checkHoldingPeriod th now series positions
  if alerts.isEmpty then { proceed := true, alerts := [] }
  else { proceed := false, alerts := alerts }

/-!
Performance metrics, from `backtest/metrics.py`.  `compute_metrics` reads only
`item["equity"]` from each entry, so its input is modelled as the list of
equity values.  Floating-point arithmetic (including `sqrt` and the float
power `**`) is modelled over the real numbers, so these definitions are
noncomputable; concrete instances are evaluated by simp/norm_num.
-/

/-- The empty-curve result `{}` is `none`; a populated result carries the four
statistics. -/
structure BacktestMetrics where
  total_return : ℝ
  annual_return : ℝ
  max_drawdown : ℝ
  sharpe_ratio : ℝ

/-- The mean `sum(returns)/len(returns)` used by `compute_metrics`. -/
noncomputable def listMean (l : List ℝ) : ℝ :=
  l.sum / (l.length : ℝ)

/-- The population variance `sum((r-avg)**2 for r in returns)/len(returns)`
used by `compute_metrics`. -/
noncomputable def popVariance (l : List ℝ) : ℝ :=
  (l.map (fun r => (r - listMean l) ^ 2)).sum / (l.length : ℝ)

/-- The period-return loop of `compute_metrics`: consecutive relative changes,
skipping a step whose previous value is zero. -/
noncomputable def periodReturns : List ℝ → List ℝ
  | [] => []
  | [_] => []
  | a :: b :: rest => (if a = 0 then [] else [(b - a) / a]) ++ periodReturns (b :: rest)

/-- One step of the running-peak drawdown loop of `compute_metrics`: the state
is `(peak, max_drawdown)`. -/
noncomputable def drawdownStep (s : ℝ × ℝ) (value : ℝ) : ℝ × ℝ :=
  let peak := max s.1 value
  (peak, min s.2 (if peak = 0 then 0 else (value - peak) / peak))

/-- `compute_metrics` from `backtest/metrics.py`. -/
noncomputable def compute_metrics : List ℝ → Option BacktestMetrics
  | [] => none
  | v :: vs =>
    let equity_values := v :: vs
    let start := v
    let endValue := equity_values.getLast (List.cons_ne_nil v vs)
    let total_return := if start = 0 then 0 else (endValue - start) / start
    let periods := equity_values.length
    let annual_return :=
      if 1 < periods then (1 + total_return) ^ ((252 : ℝ) / ((max periods 1 : ℕ) : ℝ)) - 1
      else total_return
    let max_drawdown := (equity_values.foldl drawdownStep (start, (0 : ℝ))).2
    let returns := periodReturns equity_values
    let sharpe_ratio :=
      if returns = [] then 0
      else
        let std := Real.sqrt (popVariance returns)
        if std = 0 then 0 else listMean returns / std * Real.sqrt 252
    some { total_return := total_return, annual_return := annual_return,
           max_drawdown := max_drawdown, sharpe_ratio := sharpe_ratio }

/-!
Specification-side definitions, written from the spec's wording rather than
the source, for the claims that compare the two.
-/

/-- Specification-side rendering of the lot-drain of spec §4.2: drain the
(sorted, eligible) lots in FIFO order, fully consuming lots until the
requested volume is covered, splitting the last touched lot into a residual
with the same cost price and acquisition time. -/
def specFifoDrain : ℕ → List Lot → List Lot
  | _, [] => []
  | 0, lots => lots
  | v + 1, lot :: rest =>
    if lot.volume ≤ v + 1 then specFifoDrain (v + 1 - lot.volume) rest
    else Lot.mk (lot.volume - (v + 1)) lot.cost_price lot.acquired_at :: rest

/-- Specification-side list of running-peak drawdowns of spec §4.4: for each
value, `(value - peak)/peak` against the running peak (0 when the peak is 0),
with the peak initialized to the first value. -/
noncomputable def specDrawdownList : ℝ → List ℝ → List ℝ
  | _, [] => []
  | peak, value :: rest =>
    let peak1 := max peak value
    (if peak1 = 0 then 0 else (value - peak1) / peak1) :: specDrawdownList peak1 rest

/-!
General lemmas about the lot-removal loop.
-/

theorem lotEligible_mk (before : Option ℤ) (v : ℕ) (c : ℚ) (t : ℤ) (lot : Lot)
    (h : lot.acquired_at = t) : lotEligible before (Lot.mk v c t) = lotEligible before lot := by
  cases before <;> simp [lotEligible, h]

theorem removeLoop_remaining (before : Option ℤ) (v : ℕ) (lots : List Lot) :
    (removeLoop before v lots).1 =
      v - ((lots.filter (lotEligible before)).map Lot.volume).sum := by
  induction lots generalizing v with
  | nil => simp [removeLoop]
  | cons lot rest ih =>
    cases he : lotEligible before lot with
    | false => simp [removeLoop, he, ih]
    | true =>
      by_cases hv : v = 0
      · subst hv
        simp [removeLoop, he, ih]
      · simp [removeLoop, he, hv, ih]
        omega

theorem removeLoop_volume_sum (before : Option ℤ) (v : ℕ) (lots : List Lot) :
    ((removeLoop before v lots).2.2.map Lot.volume).sum + v =
      (lots.map Lot.volume).sum + (removeLoop before v lots).1 := by
  induction lots generalizing v with
  | nil => simp [removeLoop]
  | cons lot rest ih =>
    cases he : lotEligible before lot with
    | false =>
      simp only [removeLoop, he, Bool.false_eq_true, if_true, List.map_cons, List.sum_cons]
      have := ih v
      omega
    | true =>
      by_cases hv : v = 0
      · subst hv
        simp only [removeLoop, he, Bool.true_eq_false, if_false, if_true, List.map_cons,
          List.sum_cons]
        have := ih 0
        omega
      · simp only [removeLoop, he, Bool.true_eq_false, if_false, hv, List.map_cons, List.sum_cons]
        have := ih (v - min lot.volume v)
        by_cases hr : 0 < lot.volume - min lot.volume v
        · simp only [hr, if_true, List.map_append, List.map_cons, List.map_nil, List.sum_append,
            List.sum_cons, List.sum_nil]
          omega
        · simp only [hr, if_false, List.nil_append]
          omega

theorem removeLoop_ineligible (before : Option ℤ) (v : ℕ) (lots : List Lot) :
    (removeLoop before v lots).2.2.filter (fun l => ! lotEligible before l) =
      lots.filter (fun l => ! lotEligible before l) := by
  induction lots generalizing v with
  | nil => simp [removeLoop]
  | cons lot rest ih =>
    cases he : lotEligible before lot with
    | false => simp [removeLoop, he, ih]
    | true =>
      by_cases hv : v = 0
      · subst hv
        simp [removeLoop, he, ih]
      · simp only [removeLoop, he, Bool.true_eq_false, if_false, hv, List.filter_append]
        by_cases hr : 0 < lot.volume - min lot.volume v
        · simp [hr, lotEligible_mk before _ _ _ lot rfl, he, ih]
        · simp [hr, he, ih]

theorem specFifoDrain_zero (lots : List Lot) : specFifoDrain 0 lots = lots := by
  cases lots <;> simp [specFifoDrain]

theorem removeLoop_eligible (before : Option ℤ) (v : ℕ) (lots : List Lot) :
    (removeLoop before v lots).2.2.filter (lotEligible before) =
      specFifoDrain v (lots.filter (lotEligible before)) := by
  induction lots generalizing v with
  | nil => simp [removeLoop, specFifoDrain]
  | cons lot rest ih =>
    cases he : lotEligible before lot with
    | false => simp [removeLoop, he, ih]
    | true =>
      cases v with
      | zero => simp [removeLoop, he, ih, specFifoDrain_zero]
      | succ w =>
        simp only [removeLoop, he, Bool.true_eq_false, if_false, Nat.succ_ne_zero,
          List.filter_cons, List.filter_append]
        by_cases hle : lot.volume ≤ w + 1
        · have hmin : min lot.volume (w + 1) = lot.volume := by omega
          have hr : ¬ 0 < lot.volume - min lot.volume (w + 1) := by omega
          simp [hr, hmin, ih, he, specFifoDrain, hle]
        · have hmin : min lot.volume (w + 1) = w + 1 := by omega
          have hr : 0 < lot.volume - min lot.volume (w + 1) := by omega
          have hlt : w + 1 < lot.volume := by omega
          simp [hr, hmin, hlt, ih, he, specFifoDrain, hle, specFifoDrain_zero,
            lotEligible_mk before _ _ _ lot rfl]

theorem available_volume_eq_sorted_sum (p : Position) (before : Option ℤ) :
    p.available_volume before =
      (((sortLots p.lots).filter (lotEligible before)).map Lot.volume).sum := by
  have hperm : (sortLots p.lots).Perm p.lots := List.perm_insertionSort _ _
  have hfil : ((sortLots p.lots).filter (lotEligible before)).Perm
      (p.lots.filter (lotEligible before)) := hperm.filter _
  have hsum : (((sortLots p.lots).filter (lotEligible before)).map Lot.volume).sum =
      ((p.lots.filter (lotEligible before)).map Lot.volume).sum :=
    (hfil.map Lot.volume).sum_eq
  rw [hsum]
  cases before with
  | none =>
    have hall : List.filter (lotEligible none) p.lots = p.lots := by
      simp [List.filter_eq_self, lotEligible]
    simp [Position.available_volume, Position.volume, hall]
  | some b =>
    have hfun : List.filter (fun lot => decide (lot.acquired_at < b)) p.lots =
        List.filter (lotEligible (some b)) p.lots := by
      apply List.filter_congr
      intro l _
      simp [lotEligible]
    simp only [Position.available_volume, hfun]

theorem remove_volume_of_le_available (p : Position) (v : ℕ) (before : Option ℤ)
    (h : v ≤ p.available_volume before) :
    p.remove_volume v before =
      some ({ p with lots := (removeLoop before v (sortLots p.lots)).2.2 },
            (removeLoop before v (sortLots p.lots)).2.1) := by
  have hrem : (removeLoop before v (sortLots p.lots)).1 = 0 := by
    rw [removeLoop_remaining]
    rw [available_volume_eq_sorted_sum] at h
    omega
  simp [Position.remove_volume, hrem]

/-- C4: when the requested volume is pre-checked against `available_volume`
with the same cutoff, `Position.remove_volume` never raises the fatal
insufficient-position error; it reduces the total position volume by exactly
the requested volume, leaves every ineligible lot untouched, rewrites the
eligible lots to exactly the spec's FIFO drain (splitting at most the last
touched lot into a residual with the same cost price and acquisition time),
and changes nothing else about the position. -/
theorem C4_remove_volume_safe (p : Position) (v : ℕ) (before : Option ℤ)
    (h : v ≤ p.available_volume before) :
    ∃ q cost, p.remove_volume v before = some (q, cost) ∧
      q.volume + v = p.volume ∧
      q.lots.filter (fun l => ! lotEligible before l) =
        (sortLots p.lots).filter (fun l => ! lotEligible before l) ∧
      q.lots.filter (lotEligible before) =
        specFifoDrain v ((sortLots p.lots).filter (lotEligible before)) ∧
      (sortLots p.lots).Perm p.lots ∧
      q.symbol = p.symbol ∧ q.frozen = p.frozen := by
  refine ⟨_, _, remove_volume_of_le_available p v before h, ?_, ?_, ?_, ?_, rfl, rfl⟩
  · have hrem : (removeLoop before v (sortLots p.lots)).1 = 0 := by
      rw [removeLoop_remaining]
      rw [available_volume_eq_sorted_sum] at h
      omega
    have hsorted : ((sortLots p.lots).map Lot.volume).sum = (p.lots.map Lot.volume).sum := by
      have := ((List.perm_insertionSort
        (fun a b : Lot => a.acquired_at ≤ b.acquired_at) p.lots).map Lot.volume).sum_eq
      simpa [sortLots] using this
    have := removeLoop_volume_sum before v (sortLots p.lots)
    simp only [Position.volume]
    omega
  · exact removeLoop_ineligible before v (sortLots p.lots)
  · exact removeLoop_eligible before v (sortLots p.lots)
  · exact List.perm_insertionSort _ _

/-- C4 witness: removing 4 shares with cutoff 5 from a position holding an
eligible lot of 7 (acquired at 0) and an ineligible lot of 5 (acquired at 10)
succeeds and satisfies every conjunct of the theorem. -/
theorem C4_remove_volume_safe_witness :
    ∃ q cost,
      (Position.mk "A" [Lot.mk 5 2 10, Lot.mk 7 3 0] false).remove_volume 4 (some 5) =
        some (q, cost) ∧
      q.volume + 4 = (Position.mk "A" [Lot.mk 5 2 10, Lot.mk 7 3 0] false).volume ∧
      q.lots.filter (fun l => ! lotEligible (some 5) l) =
        (sortLots [Lot.mk 5 2 10, Lot.mk 7 3 0]).filter (fun l => ! lotEligible (some 5) l) ∧
      q.lots.filter (lotEligible (some 5)) =
        specFifoDrain 4 ((sortLots [Lot.mk 5 2 10, Lot.mk 7 3 0]).filter (lotEligible (some 5))) ∧
      (sortLots [Lot.mk 5 2 10, Lot.mk 7 3 0]).Perm [Lot.mk 5 2 10, Lot.mk 7 3 0] ∧
      q.symbol = "A" ∧ q.frozen = false := by
  have h := C4_remove_volume_safe (Position.mk "A" [Lot.mk 5 2 10, Lot.mk 7 3 0] false)
    4 (some 5) (by decide)
  exact h

/-!
Cash lemmas for the engine paths.
-/

theorem execBuy_cash_nonneg (cfg : ExecutionConfig) (account : Account) (o : Order)
    (price : ℚ) (dt : ℤ) (h : 0 ≤ account.cash) :
    0 ≤ (execBuy cfg account o price dt).1.cash := by
  simp only [execBuy]
  by_cases hc : account.cash <
      price * (o.volume : ℚ) + commissionFee cfg price o.volume + transferFee cfg price o.volume
  · rw [if_pos hc]
    exact h
  · rw [if_neg hc]
    simp only
    linarith [not_lt.mp hc]

theorem execSell_cash_cases (cfg : ExecutionConfig) (account : Account) (o : Order)
    (price : ℚ) (dt : ℤ) (s : Account × Order × Option Trade)
    (h : execSell cfg account o price dt = some s) :
    s.1.cash = account.cash ∨
      s.1.cash = account.cash + (price * (o.volume : ℚ) - commissionFee cfg price o.volume -
        transferFee cfg price o.volume - stampDuty cfg price o.volume) := by
  simp only [execSell] at h
  cases hl : posLookup account.positions o.symbol with
  | none =>
    simp only [hl, Option.some.injEq] at h
    subst h
    left
    rfl
  | some pos =>
    simp only [hl] at h
    by_cases hav : pos.available_volume
        (if cfg.allow_same_day_sell then none else some dt) < o.volume
    · rw [if_pos hav] at h
      simp only [Option.some.injEq] at h
      subst h
      left
      rfl
    · rw [if_neg hav] at h
      cases hr : pos.remove_volume o.volume
          (if cfg.allow_same_day_sell then none else some dt) with
      | none =>
        simp only [hr] at h
        exact Option.noConfusion h
      | some r =>
        simp only [hr, Option.some.injEq] at h
        subst h
        right
        rfl

theorem sell_net_nonneg (cfg : ExecutionConfig) (price : ℚ) (vol : ℕ)
    (hminc : cfg.min_commission ≤ 0) (hcr : 0 ≤ cfg.commission_rate)
    (hsum : cfg.commission_rate + cfg.transfer_fee_rate + cfg.stamp_duty_rate ≤ 1)
    (hp : 0 ≤ price) :
    0 ≤ price * (vol : ℚ) - commissionFee cfg price vol - transferFee cfg price vol -
      stampDuty cfg price vol := by
  have hpv : 0 ≤ price * (vol : ℚ) := by positivity
  have hmax : commissionFee cfg price vol = price * (vol : ℚ) * cfg.commission_rate := by
    unfold commissionFee
    exact max_eq_left (le_trans hminc (mul_nonneg hpv hcr))
  have hfac := mul_nonneg hpv (sub_nonneg.mpr hsum)
  unfold transferFee stampDuty
  rw [hmax]
  nlinarith [hfac]

/-- C1 counterexample: on an account with cash 0 (so cash ≥ 0 holds before
the call), executing a single sell of one share at price 1 under the default
configuration leaves the account with strictly negative cash: the minimum
commission of 5 exceeds the sale proceeds of 1 and the sell path is not
guarded, so cash ≥ 0 is not an invariant of `ExecutionEngine.execute`. -/
theorem C1_counterexample :
    (ExecutionEngine.execute defaultConfig
        (Account.mk 0 [("A", Position.mk "A" [Lot.mk 10 1 0] false)] [] [])
        [Order.mk "o1" "A" OrderSide.sell 1 1 0 "created" 0 0]
        (fun _ _ => 1) 1).map (fun r => decide (r.1.cash < 0)) = some true := by
  norm_num [ExecutionEngine.execute, execSell, posLookup, posUpdate, posErase, defaultConfig,
    Position.available_volume, Position.remove_volume, removeLoop, sortLots,
    List.insertionSort, lotEligible, Position.is_empty, commissionFee, transferFee,
    stampDuty, mkTrade, max_def]

/-- C1 (amended): a buy can never drive cash negative (it is rejected when
cash is insufficient), and the whole batch preserves cash ≥ 0 provided the
configuration cannot make a sell's fees exceed its proceeds: min_commission
≤ 0, non-negative rates, and commission + transfer + stamp-duty rates summing
to at most 1.  (With the default min_commission of 5 the invariant fails, see
the counterexample.) -/
theorem C1_cash_nonneg_amended (cfg : ExecutionConfig) (pl : String → OrderSide → ℚ)
    (dt : ℤ) (orders : List Order) (account : Account)
    (result : Account × List Order × List Trade)
    (hminc : cfg.min_commission ≤ 0) (hcr : 0 ≤ cfg.commission_rate)
    (hsum : cfg.commission_rate + cfg.transfer_fee_rate + cfg.stamp_duty_rate ≤ 1)
    (hcash : 0 ≤ account.cash)
    (hex : ExecutionEngine.execute cfg account orders pl dt = some result) :
    0 ≤ result.1.cash := by
  induction orders generalizing account result with
  | nil =>
    simp only [ExecutionEngine.execute, Option.some.injEq] at hex
    subst hex
    exact hcash
  | cons o rest ih =>
    simp only [ExecutionEngine.execute] at hex
    by_cases hp : pl o.symbol o.side ≤ 0
    · rw [if_pos hp] at hex
      rw [Option.map_eq_some'] at hex
      obtain ⟨r, hr, hres⟩ := hex
      have := ih account r hcash hr
      rw [← hres]
      exact this
    · rw [if_neg hp] at hex
      cases hside : o.side with
      | buy =>
        simp only [hside] at hex
        rw [Option.map_eq_some'] at hex
        obtain ⟨r, hr, hres⟩ := hex
        have hc1 : 0 ≤ (execBuy cfg account o (pl o.symbol o.side) dt).1.cash :=
          execBuy_cash_nonneg cfg account o (pl o.symbol o.side) dt hcash
        rw [hside] at hc1
        have := ih _ r hc1 hr
        rw [← hres]
        exact this
      | sell =>
        simp only [hside] at hex
        cases hs : execSell cfg account o (pl o.symbol OrderSide.sell) dt with
        | none =>
          simp only [hs] at hex
          exact Option.noConfusion hex
        | some s =>
          simp only [hs] at hex
          rw [Option.map_eq_some'] at hex
          obtain ⟨r, hr, hres⟩ := hex
          have hpos : (0 : ℚ) ≤ pl o.symbol OrderSide.sell := by
            rw [hside] at hp
            exact le_of_lt (not_le.mp hp)
          have hc1 : 0 ≤ s.1.cash := by
            rcases execSell_cash_cases cfg account o (pl o.symbol OrderSide.sell) dt s hs with
              hc | hc
            · rw [hc]; exact hcash
            · rw [hc]
              have := sell_net_nonneg cfg (pl o.symbol OrderSide.sell) o.volume hminc hcr
                hsum hpos
              linarith
          have := ih _ r hc1 hr
          rw [← hres]
          exact this

/-- C1 (amended) witness: with a fee-free configuration and cash 5, an empty
batch trivially satisfies all hypotheses and cash stays non-negative. -/
theorem C1_cash_nonneg_amended_witness :
    (0 : ℚ) ≤ ((Account.mk 5 [] [] [], ([] : List Order), ([] : List Trade)) :
      Account × List Order × List Trade).1.cash :=
  C1_cash_nonneg_amended (ExecutionConfig.mk 0 0 0 0 false) (fun _ _ => 1) 0 []
    (Account.mk 5 [] [] []) (Account.mk 5 [] [] [], [], [])
    (by norm_num) (by norm_num) (by norm_num) (by norm_num) rfl

/-- C2: a buy that ends filled debits exactly
`price·volume + commission + transfer_fee`, and a sell that ends filled
credits exactly `price·volume − commission − transfer_fee − stamp_duty`,
with `commission = max(price·volume·commission_rate, min_commission)`,
`transfer_fee = price·volume·transfer_fee_rate` and
`stamp_duty = price·volume·stamp_duty_rate`. -/
theorem C2_filled_cash_equation (cfg : ExecutionConfig) (account : Account) (o : Order)
    (price : ℚ) (dt : ℤ) :
    ((execBuy cfg account o price dt).2.1.status = "filled" →
      (execBuy cfg account o price dt).1.cash =
        account.cash - (price * (o.volume : ℚ) + commissionFee cfg price o.volume +
          transferFee cfg price o.volume)) ∧
    (∀ s, execSell cfg account o price dt = some s → s.2.1.status = "filled" →
      s.1.cash = account.cash + (price * (o.volume : ℚ) - commissionFee cfg price o.volume -
        transferFee cfg price o.volume - stampDuty cfg price o.volume)) := by
  constructor
  · intro hst
    simp only [execBuy] at hst ⊢
    by_cases hc : account.cash <
        price * (o.volume : ℚ) + commissionFee cfg price o.volume + transferFee cfg price o.volume
    · rw [if_pos hc] at hst
      simp at hst
    · rw [if_neg hc]
  · intro s hs hst
    simp only [execSell] at hs
    cases hl : posLookup account.positions o.symbol with
    | none =>
      simp only [hl, Option.some.injEq] at hs
      subst hs
      simp at hst
    | some pos =>
      simp only [hl] at hs
      by_cases hav : pos.available_volume
          (if cfg.allow_same_day_sell then none else some dt) < o.volume
      · rw [if_pos hav] at hs
        simp only [Option.some.injEq] at hs
        subst hs
        simp at hst
      · rw [if_neg hav] at hs
        cases hr : pos.remove_volume o.volume
            (if cfg.allow_same_day_sell then none else some dt) with
        | none =>
          simp only [hr] at hs
          exact Option.noConfusion hs
        | some r =>
          simp only [hr, Option.some.injEq] at hs
          subst hs
          rfl

/-- C2 witness: with a zero-fee configuration, a filled buy of 2 shares at
price 3 debits 6 from cash 100, and a filled sell of 2 shares at price 3 from
a 5-share position credits 6 onto cash 100. -/
theorem C2_filled_cash_equation_witness :
    (execBuy (ExecutionConfig.mk 0 0 0 0 false) (Account.mk 100 [] [] [])
        (Order.mk "o1" "A" OrderSide.buy 2 0 0 "created" 0 0) 3 5).1.cash =
      (100 : ℚ) - (3 * (2 : ℚ) + commissionFee (ExecutionConfig.mk 0 0 0 0 false) 3 2 +
        transferFee (ExecutionConfig.mk 0 0 0 0 false) 3 2) ∧
    (Account.mk 106 [("A", Position.mk "A" [Lot.mk 3 1 0] false)]
        [Trade.mk "trade-o2" "o2" "A" OrderSide.sell 2 3 0 0 1] []).cash =
      (100 : ℚ) + (3 * (2 : ℚ) - commissionFee (ExecutionConfig.mk 0 0 0 0 false) 3 2 -
        transferFee (ExecutionConfig.mk 0 0 0 0 false) 3 2 -
        stampDuty (ExecutionConfig.mk 0 0 0 0 false) 3 2) := by
  constructor
  · exact (C2_filled_cash_equation (ExecutionConfig.mk 0 0 0 0 false) (Account.mk 100 [] [] [])
      (Order.mk "o1" "A" OrderSide.buy 2 0 0 "created" 0 0) 3 5).1
      (by norm_num [execBuy, commissionFee, transferFee, max_def])
  · exact (C2_filled_cash_equation (ExecutionConfig.mk 0 0 0 0 false)
      (Account.mk 100 [("A", Position.mk "A" [Lot.mk 5 1 0] false)] [] [])
      (Order.mk "o2" "A" OrderSide.sell 2 0 0 "created" 0 0) 3 1).2
      (Account.mk 106 [("A", Position.mk "A" [Lot.mk 3 1 0] false)]
        [Trade.mk "trade-o2" "o2" "A" OrderSide.sell 2 3 0 0 1] [],
        Order.mk "o2" "A" OrderSide.sell 2 0 0 "filled" 2 6,
        some (Trade.mk "trade-o2" "o2" "A" OrderSide.sell 2 3 0 0 1))
      (by
        norm_num [execSell, posLookup, posUpdate, posErase, Position.available_volume,
          Position.remove_volume, removeLoop, sortLots, List.insertionSort, lotEligible,
          Position.is_empty, commissionFee, transferFee, stampDuty, mkTrade, max_def]
        decide)
      rfl

/-- C3: with `allow_same_day_sell = False`, a sell whose volume exceeds the
position's `available_volume(before = trading_dt)` is rejected: the order's
status becomes "rejected", no trade is produced, and the account value —
cash, positions (with their lots), trades and equity curve — is returned
exactly as it was. -/
theorem C3_t1_sell_rejected (cfg : ExecutionConfig) (account : Account) (o : Order)
    (price : ℚ) (dt : ℤ) (pos : Position)
    (hcfg : cfg.allow_same_day_sell = false)
    (hl : posLookup account.positions o.symbol = some pos)
    (hv : pos.available_volume (some dt) < o.volume) :
    execSell cfg account o price dt =
      some (account, { o with status := "rejected" }, none) := by
  simp only [execSell, hl, hcfg, Bool.false_eq_true, if_false]
  rw [if_pos hv]

/-- C3 witness: a same-day sell of 3 shares against a position whose only lot
was acquired at the trading time itself (available volume 0) is rejected and
the account is returned unchanged. -/
theorem C3_t1_sell_rejected_witness :
    execSell defaultConfig
        (Account.mk 1000 [("A", Position.mk "A" [Lot.mk 10 1 5] false)] [] [])
        (Order.mk "o1" "A" OrderSide.sell 3 0 5 "created" 0 0) 2 5 =
      some (Account.mk 1000 [("A", Position.mk "A" [Lot.mk 10 1 5] false)] [] [],
        { Order.mk "o1" "A" OrderSide.sell 3 0 5 "created" 0 0 with status := "rejected" },
        none) :=
  C3_t1_sell_rejected defaultConfig
    (Account.mk 1000 [("A", Position.mk "A" [Lot.mk 10 1 5] false)] [] [])
    (Order.mk "o1" "A" OrderSide.sell 3 0 5 "created" 0 0) 2 5
    (Position.mk "A" [Lot.mk 10 1 5] false) rfl (by decide) (by decide)

/-- C8: an order whose looked-up price is ≤ 0 is skipped silently: the order
is passed through with its status (and every other field) untouched, no trade
is produced for it, the account is unchanged when the rest of the batch is
processed, and processing continues with the remaining orders. -/
theorem C8_nonpositive_price_skips (cfg : ExecutionConfig) (account : Account) (o : Order)
    (rest : List Order) (pl : String → OrderSide → ℚ) (dt : ℤ)
    (hp : pl o.symbol o.side ≤ 0) :
    ExecutionEngine.execute cfg account (o :: rest) pl dt =
      (ExecutionEngine.execute cfg account rest pl dt).map
        (fun r => (r.1, o :: r.2.1, r.2.2)) := by
  simp only [ExecutionEngine.execute]
  rw [if_pos hp]

/-- C8 witness: with a price feed returning 0, a buy order is skipped and the
batch result is the empty-batch result with the untouched order re-inserted. -/
theorem C8_nonpositive_price_skips_witness :
    ExecutionEngine.execute defaultConfig (Account.mk 50 [] [] [])
        [Order.mk "o1" "A" OrderSide.buy 1 1 0 "created" 0 0] (fun _ _ => 0) 0 =
      (ExecutionEngine.execute defaultConfig (Account.mk 50 [] [] []) [] (fun _ _ => 0) 0).map
        (fun r => (r.1, Order.mk "o1" "A" OrderSide.buy 1 1 0 "created" 0 0 :: r.2.1, r.2.2)) :=
  C8_nonpositive_price_skips defaultConfig (Account.mk 50 [] [] [])
    (Order.mk "o1" "A" OrderSide.buy 1 1 0 "created" 0 0) [] (fun _ _ => 0) 0 (by norm_num)

/-!
Lemmas connecting the engine batch to the live settlement path.
-/

theorem execBuy_trade_id (cfg : ExecutionConfig) (account : Account) (o : Order)
    (price : ℚ) (dt : ℤ) (t : Trade) (h : (execBuy cfg account o price dt).2.2 = some t) :
    t.order_id = o.order_id := by
  simp only [execBuy] at h
  by_cases hc : account.cash <
      price * (o.volume : ℚ) + commissionFee cfg price o.volume + transferFee cfg price o.volume
  · rw [if_pos hc] at h
    exact Option.noConfusion h
  · rw [if_neg hc] at h
    simp only [Option.some.injEq] at h
    rw [← h]
    rfl

theorem execSell_trade_id (cfg : ExecutionConfig) (account : Account) (o : Order)
    (price : ℚ) (dt : ℤ) (s : Account × Order × Option Trade) (t : Trade)
    (hs : execSell cfg account o price dt = some s) (h : s.2.2 = some t) :
    t.order_id = o.order_id := by
  simp only [execSell] at hs
  cases hl : posLookup account.positions o.symbol with
  | none =>
    simp only [hl, Option.some.injEq] at hs
    subst hs
    exact Option.noConfusion h
  | some pos =>
    simp only [hl] at hs
    by_cases hav : pos.available_volume
        (if cfg.allow_same_day_sell then none else some dt) < o.volume
    · rw [if_pos hav] at hs
      simp only [Option.some.injEq] at hs
      subst hs
      exact Option.noConfusion h
    · rw [if_neg hav] at hs
      cases hr : pos.remove_volume o.volume
          (if cfg.allow_same_day_sell then none else some dt) with
      | none =>
        simp only [hr] at hs
        exact Option.noConfusion hs
      | some r =>
        simp only [hr, Option.some.injEq] at hs
        subst hs
        simp only [Option.some.injEq] at h
        rw [← h]
        rfl

theorem execute_trade_ids (cfg : ExecutionConfig) (pl : String → OrderSide → ℚ) (dt : ℤ) :
    ∀ (orders : List Order) (account : Account) (res : Account × List Order × List Trade),
      ExecutionEngine.execute cfg account orders pl dt = some res →
      ∀ t ∈ res.2.2, ∃ o2, o2 ∈ orders ∧ t.order_id = o2.order_id := by
  intro orders
  induction orders with
  | nil =>
    intro account res hex t ht
    simp only [ExecutionEngine.execute, Option.some.injEq] at hex
    rw [← hex] at ht
    simp at ht
  | cons o rest ih =>
    intro account res hex t ht
    simp only [ExecutionEngine.execute] at hex
    by_cases hp : pl o.symbol o.side ≤ 0
    · rw [if_pos hp] at hex
      rw [Option.map_eq_some'] at hex
      obtain ⟨r, hr, heq⟩ := hex
      rw [← heq] at ht
      obtain ⟨o2, ho2, hid⟩ := ih account r hr t ht
      exact ⟨o2, List.mem_cons_of_mem _ ho2, hid⟩
    · rw [if_neg hp] at hex
      cases hside : o.side with
      | buy =>
        simp only [hside] at hex
        rw [Option.map_eq_some'] at hex
        obtain ⟨r, hr, heq⟩ := hex
        rw [← heq] at ht
        simp only [List.mem_append] at ht
        rcases ht with ht | ht
        · have htr : (execBuy cfg account o (pl o.symbol OrderSide.buy) dt).2.2 = some t := by
            cases hop : (execBuy cfg account o (pl o.symbol OrderSide.buy) dt).2.2 with
            | none => rw [hop] at ht; simp at ht
            | some t2 =>
              rw [hop] at ht
              simp only [Option.toList_some, List.mem_singleton] at ht
              rw [ht]
          exact ⟨o, List.mem_cons_self o rest,
            execBuy_trade_id cfg account o (pl o.symbol OrderSide.buy) dt t htr⟩
        · obtain ⟨o2, ho2, hid⟩ := ih _ r hr t ht
          exact ⟨o2, List.mem_cons_of_mem _ ho2, hid⟩
      | sell =>
        simp only [hside] at hex
        cases hs : execSell cfg account o (pl o.symbol OrderSide.sell) dt with
        | none =>
          simp only [hs] at hex
          exact Option.noConfusion hex
        | some s =>
          simp only [hs] at hex
          rw [Option.map_eq_some'] at hex
          obtain ⟨r, hr, heq⟩ := hex
          rw [← heq] at ht
          simp only [List.mem_append] at ht
          rcases ht with ht | ht
          · have htr : s.2.2 = some t := by
              cases hop : s.2.2 with
              | none => rw [hop] at ht; simp at ht
              | some t2 =>
                rw [hop] at ht
                simp only [Option.toList_some, List.mem_singleton] at ht
                rw [ht]
            exact ⟨o, List.mem_cons_self o rest,
              execSell_trade_id cfg account o (pl o.symbol OrderSide.sell) dt s t hs htr⟩
          · obtain ⟨o2, ho2, hid⟩ := ih _ r hr t ht
            exact ⟨o2, List.mem_cons_of_mem _ ho2, hid⟩

theorem map_update_eq_of_ne (t : Trade) (orders : List Order)
    (h : ∀ o2 ∈ orders, o2.order_id ≠ t.order_id) :
    orders.map (updateOrderForTrade t) = orders := by
  induction orders with
  | nil => rfl
  | cons o rest ih =>
    simp only [List.map_cons]
    rw [ih (fun o2 ho2 => h o2 (List.mem_cons_of_mem _ ho2))]
    have hne := h o (List.mem_cons_self o rest)
    simp [updateOrderForTrade, hne]

theorem settleTrades_cons_of_ne (dt : ℤ) :
    ∀ (ts : List Trade) (a : Account) (o1 : Order) (rest : List Order),
      (∀ t ∈ ts, o1.order_id ≠ t.order_id) →
      settleTrades a (o1 :: rest) ts dt =
        (settleTrades a rest ts dt).map (fun r => (r.1, o1 :: r.2)) := by
  intro ts
  induction ts with
  | nil => intro a o1 rest h; rfl
  | cons t ts2 ih =>
    intro a o1 rest h
    simp only [settleTrades, List.map_cons]
    have hne := h t (List.mem_cons_self t ts2)
    rw [show updateOrderForTrade t o1 = o1 from by simp [updateOrderForTrade, hne]]
    cases hld : settleLedger a t dt with
    | none => rfl
    | some a1 =>
      dsimp only
      exact ih a1 o1 (rest.map (updateOrderForTrade t))
        (fun t2 ht2 => h t2 (List.mem_cons_of_mem _ ht2))

theorem settle_step_buy (cfg : ExecutionConfig) (account : Account) (o : Order)
    (price : ℚ) (dt : ℤ) (hside : o.side = OrderSide.buy)
    (hnl : ¬ account.cash <
      price * (o.volume : ℚ) + commissionFee cfg price o.volume + transferFee cfg price o.volume) :
    execBuy cfg account o price dt =
      ((execBuy cfg account o price dt).1,
        updateOrderForTrade
          (mkTrade o price (commissionFee cfg price o.volume + transferFee cfg price o.volume) 0 dt) o,
        some (mkTrade o price
          (commissionFee cfg price o.volume + transferFee cfg price o.volume) 0 dt)) ∧
    settleLedger account
        (mkTrade o price (commissionFee cfg price o.volume + transferFee cfg price o.volume) 0 dt)
        dt =
      some (execBuy cfg account o price dt).1 := by
  constructor
  · simp only [execBuy, if_neg hnl]
    simp [updateOrderForTrade, mkTrade]
  · simp only [settleLedger, mkTrade, hside]
    simp only [execBuy, if_neg hnl]
    simp only [Option.some.injEq, Account.mk.injEq]
    refine ⟨by ring, trivial, ?_, trivial⟩
    simp [mkTrade, hside]

theorem settle_step_sell (cfg : ExecutionConfig) (account : Account) (o : Order)
    (price : ℚ) (dt : ℤ) (pos : Position)
    (hconf : cfg.allow_same_day_sell = false) (hside : o.side = OrderSide.sell)
    (hl : posLookup account.positions o.symbol = some pos)
    (hav : o.volume ≤ pos.available_volume (some dt)) :
    ∃ s, execSell cfg account o price dt = some s ∧
      s.2.1 = updateOrderForTrade
        (mkTrade o price (commissionFee cfg price o.volume + transferFee cfg price o.volume)
          (stampDuty cfg price o.volume) dt) o ∧
      s.2.2 = some (mkTrade o price
        (commissionFee cfg price o.volume + transferFee cfg price o.volume)
        (stampDuty cfg price o.volume) dt) ∧
      settleLedger account
          (mkTrade o price (commissionFee cfg price o.volume + transferFee cfg price o.volume)
            (stampDuty cfg price o.volume) dt) dt =
        some s.1 := by
  have hrm := remove_volume_of_le_available pos o.volume (some dt) hav
  have hex : execSell cfg account o price dt = some
      ({ account with
          cash := account.cash + (price * (o.volume : ℚ) - commissionFee cfg price o.volume -
            transferFee cfg price o.volume - stampDuty cfg price o.volume)
          positions :=
            if ({ pos with
                lots := (removeLoop (some dt) o.volume (sortLots pos.lots)).2.2 } :
                  Position).is_empty then
              posErase (posUpdate account.positions o.symbol
                { pos with lots := (removeLoop (some dt) o.volume (sortLots pos.lots)).2.2 })
                o.symbol
            else
              posUpdate account.positions o.symbol
                { pos with lots := (removeLoop (some dt) o.volume (sortLots pos.lots)).2.2 }
          trades := account.trades ++
            [mkTrade o price (commissionFee cfg price o.volume + transferFee cfg price o.volume)
              (stampDuty cfg price o.volume) dt] },
        { o with status := "filled", filled_volume := o.volume,
                 filled_amount := price * (o.volume : ℚ) },
        some (mkTrade o price
          (commissionFee cfg price o.volume + transferFee cfg price o.volume)
          (stampDuty cfg price o.volume) dt)) := by
    simp only [execSell, hl, hconf, Bool.false_eq_true, if_false, if_neg (not_lt.mpr hav), hrm]
  refine ⟨_, hex, ?_, rfl, ?_⟩
  · simp [updateOrderForTrade, mkTrade]
  · simp only [settleLedger, mkTrade, hside, hl, hrm]
    simp only [Option.some.injEq, Account.mk.injEq]
    refine ⟨by ring, trivial, ?_, trivial⟩
    simp [mkTrade, hside]

/-- C9 (amended): when the broker returns exactly the trades the sandbox
engine would produce and every order in the batch is admissible — positive
looked-up price, sufficient cash for buys, an existing position with
sufficient T+1-eligible volume for sells — and the engine enforces T+1
(`allow_same_day_sell = false`, matching the fixed cutoff of the settle path)
and order ids are distinct, then settling those trades through the live path
produces exactly the engine's resulting account (cash, positions with lots,
trades) and the same updated orders.  Without admissibility the two paths
diverge (see the counterexample). -/
theorem C9_settle_refines_engine (cfg : ExecutionConfig) (pl : String → OrderSide → ℚ)
    (dt : ℤ) (orders : List Order) (account : Account)
    (hconf : cfg.allow_same_day_sell = false)
    (hnd : (orders.map Order.order_id).Nodup)
    (hadm : Admissible cfg pl dt account orders = true) :
    ∃ a os ts, ExecutionEngine.execute cfg account orders pl dt = some (a, os, ts) ∧
      settleTrades account orders ts dt = some (a, os) := by
  induction orders generalizing account with
  | nil => exact ⟨account, [], [], rfl, rfl⟩
  | cons o rest ih =>
    rw [List.map_cons, List.nodup_cons] at hnd
    obtain ⟨hnot, hnd2⟩ := hnd
    simp only [Admissible, Bool.and_eq_true, decide_eq_true_eq] at hadm
    obtain ⟨⟨hp, hacc⟩, hadm2⟩ := hadm
    have hple : ¬ pl o.symbol o.side ≤ 0 := not_le.mpr hp
    cases hside : o.side with
    | buy =>
      simp only [hside] at hacc hadm2 hple
      rw [decide_eq_true_eq] at hacc
      have hnl : ¬ account.cash < pl o.symbol OrderSide.buy * (o.volume : ℚ) +
          commissionFee cfg (pl o.symbol OrderSide.buy) o.volume +
          transferFee cfg (pl o.symbol OrderSide.buy) o.volume := by
        unfold buyTotalCost at hacc
        exact not_lt.mpr hacc
      obtain ⟨hbe, hsl⟩ := settle_step_buy cfg account o (pl o.symbol OrderSide.buy) dt hside hnl
      have hadm2a : Admissible cfg pl dt
          (execBuy cfg account o (pl o.symbol OrderSide.buy) dt).1 rest = true := by
        simpa [engineStepAccount, hside] using hadm2
      obtain ⟨a, os, ts, hex, hst⟩ := ih _ hnd2 hadm2a
      have htrid : (mkTrade o (pl o.symbol OrderSide.buy)
          (commissionFee cfg (pl o.symbol OrderSide.buy) o.volume +
            transferFee cfg (pl o.symbol OrderSide.buy) o.volume) 0 dt).order_id =
          o.order_id := rfl
      refine ⟨a, updateOrderForTrade (mkTrade o (pl o.symbol OrderSide.buy)
          (commissionFee cfg (pl o.symbol OrderSide.buy) o.volume +
            transferFee cfg (pl o.symbol OrderSide.buy) o.volume) 0 dt) o :: os,
        mkTrade o (pl o.symbol OrderSide.buy)
          (commissionFee cfg (pl o.symbol OrderSide.buy) o.volume +
            transferFee cfg (pl o.symbol OrderSide.buy) o.volume) 0 dt :: ts, ?_, ?_⟩
      · simp only [ExecutionEngine.execute, hside, if_neg hple]
        rw [hbe]
        dsimp only
        rw [hex]
        rfl
      · simp only [settleTrades, List.map_cons]
        have hne_rest : ∀ o2 ∈ rest, o2.order_id ≠ (mkTrade o (pl o.symbol OrderSide.buy)
            (commissionFee cfg (pl o.symbol OrderSide.buy) o.volume +
              transferFee cfg (pl o.symbol OrderSide.buy) o.volume) 0 dt).order_id := by
          intro o2 ho2 heq
          rw [htrid] at heq
          exact hnot (heq ▸ List.mem_map_of_mem Order.order_id ho2)
        rw [map_update_eq_of_ne _ rest hne_rest]
        simp only [hsl]
        have hids : ∀ t ∈ ts, (updateOrderForTrade (mkTrade o (pl o.symbol OrderSide.buy)
            (commissionFee cfg (pl o.symbol OrderSide.buy) o.volume +
              transferFee cfg (pl o.symbol OrderSide.buy) o.volume) 0 dt) o).order_id ≠
            t.order_id := by
          intro t ht heq
          obtain ⟨o2, ho2, hid⟩ := execute_trade_ids cfg pl dt rest
            (execBuy cfg account o (pl o.symbol OrderSide.buy) dt).1 (a, os, ts) hex t ht
          have : (updateOrderForTrade (mkTrade o (pl o.symbol OrderSide.buy)
              (commissionFee cfg (pl o.symbol OrderSide.buy) o.volume +
                transferFee cfg (pl o.symbol OrderSide.buy) o.volume) 0 dt) o).order_id =
              o.order_id := by
            simp only [updateOrderForTrade]
            split <;> rfl
          rw [this] at heq
          rw [heq, hid] at hnot
          exact hnot (List.mem_map_of_mem Order.order_id ho2)
        rw [settleTrades_cons_of_ne dt ts _ _ rest hids]
        rw [hst]
        rfl
    | sell =>
      simp only [hside] at hacc hadm2 hple
      cases hl : posLookup account.positions o.symbol with
      | none => simp [hl] at hacc
      | some pos =>
        simp only [hl, decide_eq_true_eq] at hacc
        obtain ⟨s, hexs, hso, hst2, hsl⟩ := settle_step_sell cfg account o
          (pl o.symbol OrderSide.sell) dt pos hconf hside hl hacc
        have hadm2a : Admissible cfg pl dt s.1 rest = true := by
          simpa [engineStepAccount, hside, hexs] using hadm2
        obtain ⟨a, os, ts, hex, hst⟩ := ih _ hnd2 hadm2a
        have htrid : (mkTrade o (pl o.symbol OrderSide.sell)
            (commissionFee cfg (pl o.symbol OrderSide.sell) o.volume +
              transferFee cfg (pl o.symbol OrderSide.sell) o.volume)
            (stampDuty cfg (pl o.symbol OrderSide.sell) o.volume) dt).order_id =
            o.order_id := rfl
        refine ⟨a, s.2.1 :: os, mkTrade o (pl o.symbol OrderSide.sell)
            (commissionFee cfg (pl o.symbol OrderSide.sell) o.volume +
              transferFee cfg (pl o.symbol OrderSide.sell) o.volume)
            (stampDuty cfg (pl o.symbol OrderSide.sell) o.volume) dt :: ts, ?_, ?_⟩
        · simp only [ExecutionEngine.execute, hside, if_neg hple, hexs]
          rw [hex]
          simp [hst2]
        · simp only [settleTrades, List.map_cons]
          have hne_rest : ∀ o2 ∈ rest, o2.order_id ≠ (mkTrade o (pl o.symbol OrderSide.sell)
              (commissionFee cfg (pl o.symbol OrderSide.sell) o.volume +
                transferFee cfg (pl o.symbol OrderSide.sell) o.volume)
              (stampDuty cfg (pl o.symbol OrderSide.sell) o.volume) dt).order_id := by
            intro o2 ho2 heq
            rw [htrid] at heq
            exact hnot (heq ▸ List.mem_map_of_mem Order.order_id ho2)
          rw [map_update_eq_of_ne _ rest hne_rest]
          simp only [hsl]
          have hupd : updateOrderForTrade (mkTrade o (pl o.symbol OrderSide.sell)
              (commissionFee cfg (pl o.symbol OrderSide.sell) o.volume +
                transferFee cfg (pl o.symbol OrderSide.sell) o.volume)
              (stampDuty cfg (pl o.symbol OrderSide.sell) o.volume) dt) o = s.2.1 := hso.symm
          rw [hupd]
          have hids : ∀ t ∈ ts, s.2.1.order_id ≠ t.order_id := by
            intro t ht heq
            obtain ⟨o2, ho2, hid⟩ := execute_trade_ids cfg pl dt rest s.1 (a, os, ts) hex t ht
            have hsid : s.2.1.order_id = o.order_id := by
              rw [hso]
              simp only [updateOrderForTrade]
              split <;> rfl
            rw [hsid] at heq
            rw [heq, hid] at hnot
            exact hnot (List.mem_map_of_mem Order.order_id ho2)
          rw [settleTrades_cons_of_ne dt ts _ _ rest hids]
          rw [hst]
          rfl

/-- C9 counterexample: for an arbitrary broker trade the two paths do not
agree.  On an account with cash 0, settling a broker buy trade (1 share at
price 1, no fees) debits the ledger unconditionally and leaves cash −1,
while the sandbox engine rejects the same buy for insufficient cash and
leaves cash 0 — so the live settlement path does not produce the same
account state as the engine for every sequence of broker trades. -/
theorem C9_counterexample :
    (settleTrades (Account.mk 0 [] [] [])
        [Order.mk "o1" "B" OrderSide.buy 1 1 0 "created" 0 0]
        [Trade.mk "t1" "o1" "B" OrderSide.buy 1 1 0 0 0] 0).map (fun r => r.1.cash) =
      some (-1) ∧
    (ExecutionEngine.execute defaultConfig (Account.mk 0 [] [] [])
        [Order.mk "o1" "B" OrderSide.buy 1 1 0 "created" 0 0] (fun _ _ => 1) 0).map
      (fun r => r.1.cash) = some 0 ∧
    (-1 : ℚ) ≠ 0 := by
  refine ⟨?_, ?_, by norm_num⟩
  · norm_num [settleTrades, settleLedger, updateOrderForTrade, posUpdate, posLookup,
      Account.get_position, Position.add_lot]
  · norm_num [ExecutionEngine.execute, execBuy, commissionFee, transferFee, defaultConfig,
      max_def]

/-- C9 (amended) witness: a fee-free admissible buy of one share at price 1
against cash 10; both paths produce the same account and orders. -/
theorem C9_settle_refines_engine_witness :
    ∃ a os ts, ExecutionEngine.execute (ExecutionConfig.mk 0 0 0 0 false)
        (Account.mk 10 [] [] []) [Order.mk "o1" "A" OrderSide.buy 1 1 0 "created" 0 0]
        (fun _ _ => 1) 0 = some (a, os, ts) ∧
      settleTrades (Account.mk 10 [] [] [])
        [Order.mk "o1" "A" OrderSide.buy 1 1 0 "created" 0 0] ts 0 = some (a, os) :=
  C9_settle_refines_engine (ExecutionConfig.mk 0 0 0 0 false) (fun _ _ => 1) 0
    [Order.mk "o1" "A" OrderSide.buy 1 1 0 "created" 0 0] (Account.mk 10 [] [] [])
    rfl (by decide)
    (by norm_num [Admissible, engineStepAccount, buyTotalCost, commissionFee, transferFee,
      max_def])

/-!
Risk-policy theorems.
-/

theorem decision_of_alerts (L : List RiskAlert) :
    (if L.isEmpty then ({ proceed := true, alerts := [] } : RiskDecision)
     else { proceed := false, alerts := L }).alerts = L ∧
    ((if L.isEmpty then ({ proceed := true, alerts := [] } : RiskDecision)
      else { proceed := false, alerts := L }).proceed = true ↔
     (if L.isEmpty then ({ proceed := true, alerts := [] } : RiskDecision)
      else { proceed := false, alerts := L }).alerts = []) := by
  cases L with
  | nil => simp
  | cons a L2 => simp

/-- C6: `evaluate` runs every check and returns the concatenation of all
their alerts (drawdown and volatility only over a nonempty normalized
series), never stopping at the first failure; `proceed` is true exactly when
the alert list is empty; and each check whose threshold is ≤ 0 contributes no
alert for any input. -/
theorem C6_evaluate_runs_all_checks (th : RiskThresholds) (sl : String → Option String)
    (now : ℤ) (ec : List EquityEntry) (ps : List PositionSnapshot) :
    ((RiskPolicy.evaluate th sl now ec ps).alerts =
      (if (normalizeEquity ec).isEmpty then []
       else (checkDrawdown th (normalizeEquity ec)).toList ++
         (checkVolatility th (normalizeEquity ec)).toList)
      ++ checkPositionExposure th (normalizeEquity ec) ps
      ++ checkSectorConcentration th sl (normalizeEquity ec) ps
      ++ checkHoldingPeriod th now (normalizeEquity ec) ps) ∧
    ((RiskPolicy.evaluate th sl now ec ps).proceed = true ↔
      (RiskPolicy.evaluate th sl now ec ps).alerts = []) ∧
    (th.max_equity_drawdown ≤ 0 → checkDrawdown th (normalizeEquity ec) = none) ∧
    (th.max_equity_volatility ≤ 0 → checkVolatility th (normalizeEquity ec) = none) ∧
    (th.max_position_ratio ≤ 0 → checkPositionExposure th (normalizeEquity ec) ps = []) ∧
    (th.max_sector_exposure ≤ 0 →
      checkSectorConcentration th sl (normalizeEquity ec) ps = []) ∧
    (th.max_holding_days ≤ 0 → checkHoldingPeriod th now (normalizeEquity ec) ps = []) := by
  have key := decision_of_alerts
    ((if (normalizeEquity ec).isEmpty then []
      else (checkDrawdown th (normalizeEquity ec)).toList ++
        (checkVolatility th (normalizeEquity ec)).toList)
     ++ checkPositionExposure th (normalizeEquity ec) ps
     ++ checkSectorConcentration th sl (normalizeEquity ec) ps
     ++ checkHoldingPeriod th now (normalizeEquity ec) ps)
  refine ⟨key.1, key.2, ?_, ?_, ?_, ?_, ?_⟩
  · intro h
    simp only [checkDrawdown, if_pos h]
  · intro h
    simp only [checkVolatility]
    rw [if_pos (Or.inl h)]
  · intro h
    simp only [checkPositionExposure]
    rw [if_pos (Or.inr (Or.inr h))]
  · intro h
    simp only [checkSectorConcentration]
    rw [if_pos (Or.inl h)]
  · intro h
    simp only [checkHoldingPeriod]
    rw [if_pos (Or.inl h)]

/-- C6 witness: with every threshold negative (disabled), each check returns
no alert on a concrete empty input. -/
theorem C6_evaluate_runs_all_checks_witness :
    checkDrawdown (RiskThresholds.mk (-1) (-1) (-1) (-1) (-1)) (normalizeEquity []) = none ∧
    checkVolatility (RiskThresholds.mk (-1) (-1) (-1) (-1) (-1)) (normalizeEquity []) = none ∧
    checkPositionExposure (RiskThresholds.mk (-1) (-1) (-1) (-1) (-1))
      (normalizeEquity []) [] = [] ∧
    checkSectorConcentration (RiskThresholds.mk (-1) (-1) (-1) (-1) (-1)) (fun _ => none)
      (normalizeEquity []) [] = [] ∧
    checkHoldingPeriod (RiskThresholds.mk (-1) (-1) (-1) (-1) (-1)) 0
      (normalizeEquity []) [] = [] := by
  have h := C6_evaluate_runs_all_checks (RiskThresholds.mk (-1) (-1) (-1) (-1) (-1))
    (fun _ => none) 0 [] []
  exact ⟨h.2.2.1 (by norm_num), h.2.2.2.1 (by norm_num), h.2.2.2.2.1 (by norm_num),
    h.2.2.2.2.2.1 (by norm_num), h.2.2.2.2.2.2 (by norm_num)⟩

/-- C10: when the equity curve normalizes to the empty series, the drawdown
and volatility checks are not run and the exposure and sector checks are
guarded out, so the decision's alerts are exactly those of the
holding-period check, whatever the positions are. -/
theorem C10_empty_series_only_holding (th : RiskThresholds) (sl : String → Option String)
    (now : ℤ) (ec : List EquityEntry) (ps : List PositionSnapshot)
    (h : normalizeEquity ec = []) :
    (RiskPolicy.evaluate th sl now ec ps).alerts = checkHoldingPeriod th now [] ps := by
  have key := (decision_of_alerts
    ((if (normalizeEquity ec).isEmpty then []
      else (checkDrawdown th (normalizeEquity ec)).toList ++
        (checkVolatility th (normalizeEquity ec)).toList)
     ++ checkPositionExposure th (normalizeEquity ec) ps
     ++ checkSectorConcentration th sl (normalizeEquity ec) ps
     ++ checkHoldingPeriod th now (normalizeEquity ec) ps)).1
  refine key.trans ?_
  rw [h]
  simp [checkPositionExposure, checkSectorConcentration]

/-- C10 witness: with an empty equity curve and a position holding a lot
acquired 10 days before `now`, only the holding-period check contributes. -/
theorem C10_empty_series_only_holding_witness :
    (RiskPolicy.evaluate (RiskThresholds.mk 0 0 0 0 5) (fun _ => none) 864000 []
        [PositionSnapshot.mk (some "A") (some (PyVal.num 1)) (some (PyVal.num 1))
          (some [SnapshotLot.mk (some (PyVal.num 1)) (some (PyVal.num 1))
            (some (TimeVal.dt 0))])]).alerts =
      checkHoldingPeriod (RiskThresholds.mk 0 0 0 0 5) 864000 []
        [PositionSnapshot.mk (some "A") (some (PyVal.num 1)) (some (PyVal.num 1))
          (some [SnapshotLot.mk (some (PyVal.num 1)) (some (PyVal.num 1))
            (some (TimeVal.dt 0))])] :=
  C10_empty_series_only_holding (RiskThresholds.mk 0 0 0 0 5) (fun _ => none) 864000 []
    [PositionSnapshot.mk (some "A") (some (PyVal.num 1)) (some (PyVal.num 1))
      (some [SnapshotLot.mk (some (PyVal.num 1)) (some (PyVal.num 1))
        (some (TimeVal.dt 0))])] rfl

/-- C7 counterexample: on the equity curve [100000, 94000] with drawdown
threshold 0.05, `evaluate` does block, but the percentage the drawdown alert
reports is (100000−94000)/100000·100 = 6.00, not approximately 6.38 (6.38
would be the drop relative to the latest equity, 6000/94000). -/
theorem C7_counterexample :
    RiskPolicy.evaluate (RiskThresholds.mk (5/100) (3/10) 0 0 0) (fun _ => none) 0
        [EquityEntry.mk none none (some (PyVal.num 100000)),
         EquityEntry.mk none none (some (PyVal.num 94000))] [] =
      RiskDecision.mk false [RiskAlert.drawdown 6 5] ∧
    ¬ |(6 : ℚ) - 638/100| < 1/200 := by
  constructor
  · norm_num [RiskPolicy.evaluate, normalizeEquity, normalizeGo,
      EquityEntry.effectiveTimestamp, checkDrawdown, checkVolatility, checkPositionExposure,
      checkSectorConcentration, checkHoldingPeriod, resolveLatestEquity, List.max?, max_def]
  · rw [abs_of_nonpos (by norm_num)]
    norm_num

/-- C7 (amended): on [100000, 94000] with `max_equity_drawdown = 0.05` (other
thresholds at their defaults, no positions), `evaluate` returns proceed=False
with a single drawdown alert reporting exactly 6.00% against the 5.00% limit;
with `max_equity_drawdown = 1.0` it returns proceed=True with no alerts. -/
theorem C7_drawdown_scenario_amended :
    RiskPolicy.evaluate (RiskThresholds.mk (5/100) (3/10) 0 0 0) (fun _ => none) 0
        [EquityEntry.mk none none (some (PyVal.num 100000)),
         EquityEntry.mk none none (some (PyVal.num 94000))] [] =
      RiskDecision.mk false [RiskAlert.drawdown 6 5] ∧
    RiskPolicy.evaluate (RiskThresholds.mk 1 (3/10) 0 0 0) (fun _ => none) 0
        [EquityEntry.mk none none (some (PyVal.num 100000)),
         EquityEntry.mk none none (some (PyVal.num 94000))] [] =
      RiskDecision.mk true [] := by
  constructor
  · norm_num [RiskPolicy.evaluate, normalizeEquity, normalizeGo,
      EquityEntry.effectiveTimestamp, checkDrawdown, checkVolatility, checkPositionExposure,
      checkSectorConcentration, checkHoldingPeriod, resolveLatestEquity, List.max?, max_def]
  · norm_num [RiskPolicy.evaluate, normalizeEquity, normalizeGo,
      EquityEntry.effectiveTimestamp, checkDrawdown, checkVolatility, checkPositionExposure,
      checkSectorConcentration, checkHoldingPeriod, resolveLatestEquity, List.max?, max_def]

/-!
Metrics lemmas.
-/

theorem drawdown_foldl (l : List ℝ) : ∀ (peak m : ℝ),
    (l.foldl drawdownStep (peak, m)).2 = (specDrawdownList peak l).foldl min m := by
  induction l with
  | nil => intro peak m; rfl
  | cons v rest ih =>
    intro peak m
    simp only [List.foldl_cons, drawdownStep, specDrawdownList]
    exact ih (max peak v) _

theorem foldl_min_le_init (L : List ℝ) : ∀ (m : ℝ), L.foldl min m ≤ m := by
  induction L with
  | nil => intro m; exact le_refl m
  | cons a L2 ih =>
    intro m
    simp only [List.foldl_cons]
    exact le_trans (ih (min m a)) (min_le_left m a)

theorem foldl_min_le_mem (L : List ℝ) : ∀ (m x : ℝ), x ∈ L → L.foldl min m ≤ x := by
  induction L with
  | nil => intro m x hx; simp at hx
  | cons a L2 ih =>
    intro m x hx
    simp only [List.foldl_cons]
    rcases List.mem_cons.mp hx with rfl | hx2
    · exact le_trans (foldl_min_le_init L2 (min m x)) (min_le_right m x)
    · exact ih (min m a) x hx2

theorem foldl_min_mem (L : List ℝ) : ∀ (m : ℝ), L.foldl min m = m ∨ L.foldl min m ∈ L := by
  induction L with
  | nil => intro m; left; rfl
  | cons a L2 ih =>
    intro m
    simp only [List.foldl_cons]
    rcases ih (min m a) with h | h
    · rcases min_cases m a with ⟨hm, _⟩ | ⟨hm, _⟩
      · left; rw [h, hm]
      · right; rw [h, hm]; exact List.mem_cons_self a L2
    · right; exact List.mem_cons_of_mem a h

theorem popVariance_nonneg (l : List ℝ) : 0 ≤ popVariance l := by
  apply div_nonneg
  · apply List.sum_nonneg
    intro x hx
    obtain ⟨r, _, rfl⟩ := List.mem_map.mp hx
    positivity
  · exact Nat.cast_nonneg l.length

theorem popVariance_singleton (r : ℝ) : popVariance [r] = 0 := by
  simp [popVariance, listMean]

theorem sharpe_cases (returns : List ℝ) :
    (returns.length < 2 →
      (if returns = [] then (0 : ℝ) else
        if Real.sqrt (popVariance returns) = 0 then 0
        else listMean returns / Real.sqrt (popVariance returns) * Real.sqrt 252) = 0) ∧
    (popVariance returns = 0 →
      (if returns = [] then (0 : ℝ) else
        if Real.sqrt (popVariance returns) = 0 then 0
        else listMean returns / Real.sqrt (popVariance returns) * Real.sqrt 252) = 0) ∧
    (2 ≤ returns.length → popVariance returns ≠ 0 →
      (if returns = [] then (0 : ℝ) else
        if Real.sqrt (popVariance returns) = 0 then 0
        else listMean returns / Real.sqrt (popVariance returns) * Real.sqrt 252) =
      listMean returns / Real.sqrt (popVariance returns) * Real.sqrt 252) := by
  refine ⟨?_, ?_, ?_⟩
  · intro hlen
    match returns with
    | [] => rw [if_pos rfl]
    | [r] =>
      rw [if_neg (List.cons_ne_nil r [])]
      rw [if_pos (by rw [popVariance_singleton, Real.sqrt_zero])]
    | a :: b :: rest =>
      simp only [List.length_cons] at hlen
      omega
  · intro hvar
    cases returns with
    | nil => rw [if_pos rfl]
    | cons a rest =>
      rw [if_neg (List.cons_ne_nil a rest)]
      rw [if_pos (by rw [hvar, Real.sqrt_zero])]
  · intro hlen hvar
    have hne : returns ≠ [] := by
      intro h
      rw [h] at hlen
      simp at hlen
    have hpos : 0 < popVariance returns :=
      lt_of_le_of_ne (popVariance_nonneg returns) (Ne.symm hvar)
    have hsq : Real.sqrt (popVariance returns) ≠ 0 :=
      ne_of_gt (Real.sqrt_pos.mpr hpos)
    rw [if_neg hne, if_neg hsq]

/-- C5: `compute_metrics` returns the empty result on an empty curve; on a
nonempty curve `total_return = (end-start)/start` (0 when start is 0),
`annual_return = (1+total_return)^(252/periods) - 1` when periods > 1 and
equals `total_return` otherwise, `max_drawdown` is the most negative
running-peak drawdown (it equals the minimum over the drawdown list seeded
with 0, is ≤ 0, lower-bounds every drawdown, and is attained), and
`sharpe_ratio = mean/stdev·√252` with population stdev over the period
returns, degenerating to 0 with fewer than two returns or zero variance. -/
theorem C5_compute_metrics_formulas :
    compute_metrics [] = none ∧
    ∀ (v : ℝ) (vs : List ℝ), ∃ m, compute_metrics (v :: vs) = some m ∧
      m.total_return = (if v = 0 then 0
        else ((v :: vs).getLast (List.cons_ne_nil v vs) - v) / v) ∧
      m.annual_return = (if 1 < (v :: vs).length then
          (1 + m.total_return) ^ ((252 : ℝ) / (((v :: vs).length : ℕ) : ℝ)) - 1
        else m.total_return) ∧
      m.max_drawdown = (specDrawdownList v (v :: vs)).foldl min 0 ∧
      m.max_drawdown ≤ 0 ∧
      (∀ d ∈ specDrawdownList v (v :: vs), m.max_drawdown ≤ d) ∧
      (m.max_drawdown = 0 ∨ m.max_drawdown ∈ specDrawdownList v (v :: vs)) ∧
      ((periodReturns (v :: vs)).length < 2 → m.sharpe_ratio = 0) ∧
      (popVariance (periodReturns (v :: vs)) = 0 → m.sharpe_ratio = 0) ∧
      (2 ≤ (periodReturns (v :: vs)).length → popVariance (periodReturns (v :: vs)) ≠ 0 →
        m.sharpe_ratio = listMean (periodReturns (v :: vs)) /
          Real.sqrt (popVariance (periodReturns (v :: vs))) * Real.sqrt 252) := by
  constructor
  · rfl
  · intro v vs
    refine ⟨_, rfl, rfl, ?_, ?_, ?_, ?_, ?_,
      (sharpe_cases (periodReturns (v :: vs))).1,
      (sharpe_cases (periodReturns (v :: vs))).2.1,
      (sharpe_cases (periodReturns (v :: vs))).2.2⟩
    · show (if 1 < (v :: vs).length then
          (1 + _) ^ ((252 : ℝ) / ((max (v :: vs).length 1 : ℕ) : ℝ)) - 1 else _) = _
      by_cases hlen : 1 < (v :: vs).length
      · rw [if_pos hlen, if_pos hlen, Nat.max_eq_left (by omega)]
      · rw [if_neg hlen, if_neg hlen]
    · exact drawdown_foldl (v :: vs) v 0
    · rw [show (((v :: vs).foldl drawdownStep (v, (0 : ℝ))).2 : ℝ) =
        (specDrawdownList v (v :: vs)).foldl min 0 from drawdown_foldl (v :: vs) v 0]
      exact foldl_min_le_init _ 0
    · intro d hd
      rw [show (((v :: vs).foldl drawdownStep (v, (0 : ℝ))).2 : ℝ) =
        (specDrawdownList v (v :: vs)).foldl min 0 from drawdown_foldl (v :: vs) v 0]
      exact foldl_min_le_mem _ 0 d hd
    · rw [show (((v :: vs).foldl drawdownStep (v, (0 : ℝ))).2 : ℝ) =
        (specDrawdownList v (v :: vs)).foldl min 0 from drawdown_foldl (v :: vs) v 0]
      exact foldl_min_mem _ 0

/-- C5 witness: on the curve [100000, 94000] the metrics exist, the total
return is the stated quotient, and (there being a single period return) the
Sharpe ratio degenerates to 0. -/
theorem C5_compute_metrics_formulas_witness :
    ∃ m, compute_metrics [(100000 : ℝ), 94000] = some m ∧
      m.total_return = (if (100000 : ℝ) = 0 then 0
        else (([(100000 : ℝ), 94000]).getLast (List.cons_ne_nil 100000 [94000]) - 100000) /
          100000) ∧
      m.sharpe_ratio = 0 := by
  obtain ⟨m, hm, htr, _, _, _, _, _, hs1, _, _⟩ :=
    C5_compute_metrics_formulas.2 100000 [94000]
  refine ⟨m, hm, htr, hs1 ?_⟩
  norm_num [periodReturns]

end LLMTrader
